import Mathlib

/-!
Verification of the benchmark-entry extraction and dispatch pipeline of the
obsidian-gycsb-plugin repository.  The TypeScript sources are shallowly
embedded: JavaScript strings become `List Char` / `String`, frontmatter
values become the closed variant `JSVal`, the Obsidian host objects
(metadata cache, bases view, vault, network transport) become explicit
parameters holding the data the code reads from them, and every function is
translated statement by statement from the source.
-/

namespace GYCSB

/-- Closed variant modelling the untyped JavaScript values that appear in a
note's frontmatter: `undefined`, `null`, booleans, strings and numbers. -/
inductive JSVal where
  | undef : JSVal
  | null : JSVal
  | bool : Bool → JSVal
  | str : String → JSVal
  | num : Int → JSVal
deriving DecidableEq, Repr

/-- JavaScript `String(value)` coercion for the variants of `JSVal`. -/
def jsString : JSVal → String
  | JSVal.undef => "undefined"
  | JSVal.null => "null"
  | JSVal.bool true => "true"
  | JSVal.bool false => "false"
  | JSVal.str s => s
  | JSVal.num n => toString n

/-- JavaScript `a ?? null`: `undefined` and `null` collapse to `null`,
every other value passes through. -/
def jsNullCoalesce : JSVal → JSVal
  | JSVal.undef => JSVal.null
  | JSVal.null => JSVal.null
  | v => v

/-- Property lookup on a JavaScript object literal (`obj[name]`), modelled
as association-list lookup; a missing key yields `undefined`. -/
def lookupProp : List (String × JSVal) → String → JSVal
  | [], _ => JSVal.undef
  | (k, v) :: rest, name => if k = name then v else lookupProp rest name

/-- A vault file together with the data the plugin reads from the Obsidian
host for it: its path, its full markdown content (`vault.read`) and the
frontmatter mapping of its metadata cache.  `frontmatter = none` models
both a missing cache entry and a cache entry without frontmatter
(`cache?.frontmatter` falsy). -/
structure VFile where
  path : String
  content : String
  frontmatter : Option (List (String × JSVal))
deriving DecidableEq, Repr

/-- Translation of `getPropertyValue` (base-handler): return
`cache.frontmatter[propertyName]` when the cache has frontmatter, and
`null` otherwise.  Note: the value is returned exactly as stored, with no
link normalization. -/
def getPropertyValue (file : VFile) (propertyName : String) : JSVal :=
  match file.frontmatter with
  | some fm => lookupProp fm propertyName
  | none => JSVal.null

/-- Translation of the regex replace
`value.replace(/^\[\[(.+?)\]\]$/, '$1')` used by `getAllProperties`: a
string that is entirely `[[` and `]]` wrapped around nonempty inner text
(in which `.` can match every character, i.e. no line terminators) is
replaced by the inner text; everything else is returned unchanged. -/
def unwrapLink (s : String) : String :=
  let cs := s.data
  if 5 ≤ cs.length ∧ cs.take 2 = ['[', '[']
      ∧ cs.drop (cs.length - 2) = [']', ']']
      ∧ ((cs.drop 2).take (cs.length - 4)).all
          (fun c => c ≠ '\n' ∧ c ≠ '\r') then
    String.mk ((cs.drop 2).take (cs.length - 4))
  else s

/-- Link normalization applied by `getAllProperties` to each value: string
values go through `unwrapLink`, all other values pass through unchanged. -/
def normalizeLinkValue : JSVal → JSVal
  | JSVal.str s => JSVal.str (unwrapLink s)
  | v => v

/-- Translation of `getAllProperties` (base-handler): copy the frontmatter
object entry by entry, stripping `[[ ]]` from string values; an absent
frontmatter yields the empty object. -/
def getAllProperties (file : VFile) : List (String × JSVal) :=
  match file.frontmatter with
  | some fm => fm.map (fun kv => (kv.1, normalizeLinkValue kv.2))
  | none => []

/-- Index of the first occurrence of `needle` as a contiguous sublist of
`hay`, scanning left to right (the semantics of an unanchored JavaScript
regex match for a literal pattern). -/
def findSub (needle : List Char) : List Char → Option Nat
  | [] => if needle.isEmpty then some 0 else none
  | c :: rest =>
    if needle.isPrefixOf (c :: rest) then some 0
    else (findSub needle rest).map (· + 1)

/-- Characters treated as whitespace by `String.prototype.trim` (the forms
that occur in this development: space, tab, newline, carriage return). -/
def isJsSpace (c : Char) : Bool :=
  c = ' ' || c = '\t' || c = '\n' || c = '\r'

/-- JavaScript `s.trim()`: drop whitespace from both ends. -/
def trimChars (cs : List Char) : List Char :=
  ((cs.dropWhile isJsSpace).reverse.dropWhile isJsSpace).reverse

/-- The replacement `yamlContent.replace(/\t/g, '  ')`: every horizontal
tab becomes two spaces. -/
def tabsToSpaces (cs : List Char) : List Char :=
  cs.foldr (fun c acc => if c = '\t' then ' ' :: ' ' :: acc else c :: acc) []

/-- Opening delimiter of a runnable-workload fenced block, from the regex
of `extractYamlFromBody`. -/
def yamlBlockOpen : List Char := "```yaml_ycsb_run\n".data

/-- Closing delimiter of a fenced code block. -/
def codeFence : List Char := "```".data

/-- Translation of `extractYamlFromBody` (base-handler), statement by
statement: strip a leading frontmatter block
(`/^---\n[\s\S]*?\n---\n/`, lazy, so the earliest closing delimiter wins);
take the first ``` `yaml_ycsb_run` ``` fenced block's inner text trimmed,
else the whole trimmed body when nonempty; finally, when the result is
nonempty, convert tabs to double spaces. -/
def extractYamlFromBody (content : String) : String :=
  let cs := content.data
  let bodyContent :=
    if ("---\n".data).isPrefixOf cs then
      match findSub ("\n---\n".data) (cs.drop 4) with
      | some j => cs.drop (4 + j + 5)
      | none => cs
    else cs
  let yamlBlockMatch : Option (List Char) :=
    match findSub yamlBlockOpen bodyContent with
    | some i =>
      match findSub codeFence (bodyContent.drop (i + yamlBlockOpen.length)) with
      | some k => some ((bodyContent.drop (i + yamlBlockOpen.length)).take k)
      | none => none
    | none => none
  let yamlContent :=
    match yamlBlockMatch with
    | some inner => trimChars inner
    | none =>
      let trimmedBody := trimChars bodyContent
      if trimmedBody.isEmpty then [] else trimmedBody
  let normalized := if yamlContent.isEmpty then yamlContent else tabsToSpaces yamlContent
  String.mk normalized

/-- A benchmark entry, mirroring the `BenchmarkEntry` interface of
`src/types.ts`. -/
structure BenchmarkEntry where
  filePath : String
  yamlContent : String
  isRun : Bool
  «variables» : JSVal
  properties : List (String × JSVal)
deriving DecidableEq, Repr

/-- One row of the materialized bases query result
(`basesView.data.data`); its `file` may be absent. -/
structure QueryEntry where
  file : Option VFile
deriving DecidableEq, Repr

/-- The data of a live bases view: `basesView.data.data`, which may be
null/undefined. -/
structure BasesData where
  data : Option (List QueryEntry)
deriving DecidableEq, Repr

/-- The per-record loop of `getBenchmarkEntries`: skip rows without a
file, evaluate eligibility with strict equality against boolean `true`,
and assemble a `BenchmarkEntry` for eligible rows only. -/
def collectEntries (queryResult : List QueryEntry) (runPropertyName : String) :
    List BenchmarkEntry :=
  match queryResult with
  | [] => []
  | qe :: rest =>
    match qe.file with
    | none => collectEntries rest runPropertyName
    | some file =>
      if getPropertyValue file runPropertyName = JSVal.bool true then
        { filePath := file.path
          yamlContent := extractYamlFromBody file.content
          isRun := true
          «variables» := getPropertyValue file "[>] variables"
          properties := getAllProperties file } :: collectEntries rest runPropertyName
      else collectEntries rest runPropertyName

/-- Translation of `getBenchmarkEntries` (base-handler).  The ambient
workspace lookup (`getLeavesOfType("bases").first()` and its controller
view) is modelled by the `basesView` parameter: `none` when no live bases
view is resolvable.  `baseFilePath` is accepted and ignored exactly as in
the source. -/
def getBenchmarkEntries (basesView : Option BasesData) (baseFilePath : String)
    (runPropertyName : String) : List BenchmarkEntry :=
  match basesView with
  | none => []
  | some bv =>
    match bv.data with
    | none => []
    | some queryResult => collectEntries queryResult runPropertyName

/-- JavaScript `str.split(sep)` for a single-character separator: the
result is never empty and splitting the empty string yields `[[]]`. -/
def splitChar (sep : Char) : List Char → List (List Char)
  | [] => [[]]
  | c :: rest =>
    let parts := splitChar sep rest
    if c = sep then [] :: parts
    else
      match parts with
      | p :: ps => (c :: p) :: ps
      | [] => [[c]]

/-- Translation of `fullFileName.replace(/\.[^/.]+$/, '')`: remove a final
dot followed by a nonempty run of characters containing neither `.` nor
`/`; otherwise return the input unchanged. -/
def stripExtension (cs : List Char) : List Char :=
  let rev := cs.reverse
  let ext := rev.takeWhile (fun c => c ≠ '.' ∧ c ≠ '/')
  match rev.drop ext.length with
  | d :: _ =>
    if d = '.' ∧ ¬ ext.isEmpty then (rev.drop (ext.length + 1)).reverse else cs
  | [] => cs

/-- Filename derivation of `generateRunningName`: split the path on `/`,
take the last part (or the empty string), and strip the extension. -/
def deriveFileName (path : String) : List Char :=
  let pathParts := splitChar '/' path.data
  let fullFileName := pathParts.getLast?.getD []
  stripExtension fullFileName

/-- Fueled worker for `template.replace(/\{filename\}/gi, fileName)`:
scan left to right, and wherever the next `pat.length` characters
lowercase to `pat`, emit `rep` and continue after the occurrence.  The
fuel only bounds the recursion; `fuel = s.length` never runs out. -/
def replaceAllCIAux (pat rep : List Char) : Nat → List Char → List Char
  | _, [] => []
  | 0, s => s
  | fuel + 1, c :: rest =>
    if 0 < pat.length ∧ ((c :: rest).take pat.length).map Char.toLower = pat then
      rep ++ replaceAllCIAux pat rep fuel ((c :: rest).drop pat.length)
    else c :: replaceAllCIAux pat rep fuel rest

/-- Global case-insensitive replacement of the literal `pat` by `rep`. -/
def replaceAllCI (pat rep s : List Char) : List Char :=
  replaceAllCIAux pat rep s.length s

/-- The replacement callback of the `/\{([^}]+)\}/g` pass: when the
property exists and is neither `undefined` nor `null`, substitute
`String(value)`, otherwise the empty string. -/
def propValueString (props : List (String × JSVal)) (propertyName : String) :
    List Char :=
  let value := lookupProp props propertyName
  if value ≠ JSVal.undef ∧ value ≠ JSVal.null then (jsString value).data else []

/-- Fueled worker for `result.replace(/\{([^}]+)\}/g, cb)`: at a `{`,
greedily take the following non-`}` characters; when they are nonempty and
followed by `}`, the group is a placeholder and is replaced via the
callback, scanning continuing after the `}`; otherwise the `{` is emitted
literally.  `fuel = s.length` never runs out. -/
def replacePropsAux (props : List (String × JSVal)) : Nat → List Char → List Char
  | _, [] => []
  | 0, s => s
  | fuel + 1, c :: rest =>
    if c = '{' then
      let inner := rest.takeWhile (fun x => x ≠ '}')
      match rest.drop inner.length with
      | d :: tail =>
        if d = '}' ∧ ¬ inner.isEmpty then
          propValueString props (String.mk inner) ++ replacePropsAux props fuel tail
        else c :: replacePropsAux props fuel rest
      | [] => c :: replacePropsAux props fuel rest
    else c :: replacePropsAux props fuel rest

/-- Replacement of every `{propertyName}` placeholder by the property's
string value. -/
def replaceProps (props : List (String × JSVal)) (s : List Char) : List Char :=
  replacePropsAux props s.length s

/-- The built-in placeholder of the first replacement pass. -/
def placeholderFilename : List Char := "{filename}".data

/-- Translation of `generateRunningName` (`src/api.ts`): derive the bare
filename from the entry's file path, substitute it for every
case-insensitive `{filename}`, then run the generic `{propertyName}` pass
over the resulting string. -/
def generateRunningName (template : String) (entry : BenchmarkEntry) : String :=
  let fileName := deriveFileName entry.filePath
  let result := replaceAllCI placeholderFilename fileName template.data
  String.mk (replaceProps entry.properties result)

/-- The JSON body posted to the Flask server for one entry. -/
structure SubmissionBody where
  filePath : String
  yamlContent : String
  «variables» : JSVal
  running_name : String
deriving DecidableEq, Repr

/-- Outcome of one `requestUrl` call: either a response with a status and
a JSON payload, or a thrown value (`some msg` for an `Error` carrying
`msg`, `none` for a non-`Error` throw). -/
inductive TransportResult where
  | response : Int → JSVal → TransportResult
  | thrown : Option String → TransportResult
deriving DecidableEq, Repr

/-- Mirror of the `BenchmarkApiResponse` interface of `src/types.ts`;
`data` is `none` when the field is absent. -/
structure BenchmarkApiResponse where
  success : Bool
  message : String
  data : Option JSVal
deriving DecidableEq, Repr

/-- Translation of `sendBenchmarkRequest` (`src/api.ts`).  The network is
the explicit `transport` collaborator mapping the posted body to what
`await requestUrl` does: return a response or throw.  A 2xx status yields
a success outcome with the response JSON; any other status yields a
failure with a `Server error` message; a throw is caught and yields a
failure with a `Request failed` message.  The function itself always
returns a `BenchmarkApiResponse`. -/
def sendBenchmarkRequest (transport : SubmissionBody → TransportResult)
    (apiUrl : String) (entry : BenchmarkEntry) (runningNameTemplate : String) :
    BenchmarkApiResponse :=
  let runningName := generateRunningName runningNameTemplate entry
  let body : SubmissionBody :=
    { filePath := entry.filePath
      yamlContent := entry.yamlContent
      «variables» := jsNullCoalesce entry.«variables»
      running_name := runningName }
  match transport body with
  | TransportResult.response status json =>
    if 200 ≤ status ∧ status < 300 then
      { success := true
        message := "Benchmark for " ++ entry.filePath ++ " submitted successfully"
        data := some json }
    else
      { success := false, message := "Server error: " ++ toString status, data := none }
  | TransportResult.thrown errVal =>
    let errorMessage := errVal.getD "Unknown error"
    { success := false, message := "Request failed: " ++ errorMessage, data := none }

/-- Aggregate outcome reported by `runBenchmarks` through its final
notice: either the distinct nothing-to-run notice shown when no entry has
the run flag, or a completed run with its success and failure tallies. -/
inductive RunOutcome where
  | nothingToRun : String → RunOutcome
  | completed : Nat → Nat → String → RunOutcome
deriving DecidableEq, Repr

/-- Result of a whole `runBenchmarks` call: the entries submitted to the
network, in submission order, together with the reported outcome. -/
structure RunResult where
  attempted : List BenchmarkEntry
  outcome : RunOutcome
deriving DecidableEq, Repr

/-- The `for (const entry of runnableEntries)` loop of `runBenchmarks`:
every entry of the list is submitted, in order, and each result only
increments one of the two counters — a failure never stops the loop. -/
def runLoop (send : BenchmarkEntry → BenchmarkApiResponse) :
    List BenchmarkEntry → List BenchmarkEntry × Nat × Nat
  | [] => ([], 0, 0)
  | e :: rest =>
    let result := send e
    let acc := runLoop send rest
    if result.success then (e :: acc.1, acc.2.1 + 1, acc.2.2)
    else (e :: acc.1, acc.2.1, acc.2.2 + 1)

/-- Translation of `runBenchmarks` (`src/api.ts`): filter the input down
to entries whose `isRun` flag is set; when none remain, report the
distinct nothing-to-run notice without touching the network; otherwise
submit every runnable entry sequentially and report the tallies with the
corresponding completion notice. -/
def runBenchmarks (transport : SubmissionBody → TransportResult) (apiUrl : String)
    (entries : List BenchmarkEntry) (runningNameTemplate : String)
    (runPropertyName : String) : RunResult :=
  let runnableEntries := entries.filter (fun e => e.isRun)
  if runnableEntries.length = 0 then
    { attempted := []
      outcome := RunOutcome.nothingToRun
        ("No benchmarks with " ++ runPropertyName ++ "=true found") }
  else
    let acc := runLoop
      (fun e => sendBenchmarkRequest transport apiUrl e runningNameTemplate)
      runnableEntries
    let notice :=
      if acc.2.2 = 0 then
        "All " ++ toString acc.2.1 ++ " benchmark(s) submitted successfully"
      else
        "Completed: " ++ toString acc.2.1 ++ " success, " ++ toString acc.2.2 ++ " failed"
    { attempted := acc.1, outcome := RunOutcome.completed acc.2.1 acc.2.2 notice }

/-- Claim-side rendering of "take the last path segment": the trailing
run of non-`/` characters of the path. -/
def specLastSegment (cs : List Char) : List Char :=
  (cs.reverse.takeWhile (fun c => c ≠ '/')).reverse

/-- Claim-side rendering (amended) of stripping a trailing extension from
a path segment: when the segment contains a dot and the text after its
last dot is nonempty, remove that last dot and everything after it;
otherwise keep the whole segment. -/
def specStripExtension (seg : List Char) : List Char :=
  let rev := seg.reverse
  let ext := rev.takeWhile (fun c => c ≠ '.')
  if ext.length < rev.length ∧ ¬ ext.isEmpty then
    (rev.drop (ext.length + 1)).reverse
  else seg

/-- Claim-side filename derivation: last path segment with its trailing
extension stripped. -/
def specDeriveFileName (path : String) : List Char :=
  specStripExtension (specLastSegment path.data)

/-- Claim-side frontmatter stripping: when the document starts with a
`---` line and a later `\n---\n` closes the block, the body is everything
after the earliest such close; otherwise the whole document. -/
def specStripFrontmatter (cs : List Char) : List Char :=
  if ("---\n".data).isPrefixOf cs then
    match findSub ("\n---\n".data) (cs.drop 4) with
    | some j => cs.drop (4 + j + 5)
    | none => cs
  else cs

/-- Claim-side search for the first runnable-workload fenced block of a
body: the text between the first ``` `yaml_ycsb_run` ``` opening and the
next ``` ``` ``` fence, when both exist. -/
def specFirstWorkloadBlock (body : List Char) : Option (List Char) :=
  match findSub yamlBlockOpen body with
  | some i =>
    match findSub codeFence (body.drop (i + yamlBlockOpen.length)) with
    | some k => some ((body.drop (i + yamlBlockOpen.length)).take k)
    | none => none
  | none => none

/-- Claim-side payload extraction: strip the frontmatter, take the first
workload block's inner text trimmed (or the whole trimmed body when there
is none), and convert every tab of the result into two spaces. -/
def specExtractPayload (content : String) : String :=
  let body := specStripFrontmatter content.data
  let payload :=
    match specFirstWorkloadBlock body with
    | some inner => trimChars inner
    | none => trimChars body
  String.mk (tabsToSpaces payload)

/-- Decidable scan for a case-insensitive occurrence of the literal `pat`
inside `s`: at some position the next `pat.length` characters lowercase
to `pat`. -/
def ciOccurs (pat : List Char) : List Char → Bool
  | [] => pat.isEmpty
  | c :: rest =>
    decide (((c :: rest).take pat.length).map Char.toLower = pat) || ciOccurs pat rest

def c1File : VFile :=
  { path := "w.md", content := "", frontmatter := some [("is_run", JSVal.bool true)] }

def c1Entry : BenchmarkEntry :=
  { filePath := "w.md", yamlContent := "", isRun := true
    «variables» := JSVal.undef, properties := [("is_run", JSVal.bool true)] }

def c2Transport : SubmissionBody → TransportResult :=
  fun b => if b.filePath = "B" then TransportResult.response 500 JSVal.null
    else TransportResult.response 200 JSVal.null

def c2EntryA : BenchmarkEntry :=
  { filePath := "A", yamlContent := "", isRun := true
    «variables» := JSVal.null, properties := [] }

def c2EntryB : BenchmarkEntry :=
  { filePath := "B", yamlContent := "", isRun := true
    «variables» := JSVal.null, properties := [] }

def c2EntryC : BenchmarkEntry :=
  { filePath := "C", yamlContent := "", isRun := true
    «variables» := JSVal.null, properties := [] }

/-- The submission body that `sendBenchmarkRequest` posts for a given
entry and running-name template. -/
def submittedBody (entry : BenchmarkEntry) (runningNameTemplate : String) :
    SubmissionBody :=
  { filePath := entry.filePath
    yamlContent := entry.yamlContent
    «variables» := jsNullCoalesce entry.«variables»
    running_name := generateRunningName runningNameTemplate entry }

def c7Entry : BenchmarkEntry :=
  { filePath := "f.md", yamlContent := "w: 1", isRun := true
    «variables» := JSVal.undef, properties := [] }

def c10EntryOff : BenchmarkEntry :=
  { filePath := "off.md", yamlContent := "", isRun := false
    «variables» := JSVal.null, properties := [] }

def c5File : VFile :=
  { path := "p.md", content := ""
    frontmatter := some [("k", JSVal.str "[[Target]]")] }

def c3Entry : BenchmarkEntry :=
  { filePath := "a/{filename}.md", yamlContent := "", isRun := true
    «variables» := JSVal.null, properties := [("filename", JSVal.str "HACK")] }

def c6Entry : BenchmarkEntry :=
  { filePath := "a/{p}.md", yamlContent := "", isRun := true
    «variables» := JSVal.null, properties := [("p", JSVal.str "X")] }

/-! Theorems. -/

theorem runLoop_spec (send : BenchmarkEntry → BenchmarkApiResponse)
    (l : List BenchmarkEntry) :
    runLoop send l =
      (l, l.countP (fun e => (send e).success),
        l.countP (fun e => !(send e).success)) := by
  induction l with
  | nil => simp [runLoop]
  | cons e rest ih =>
    by_cases h : (send e).success <;>
      simp [runLoop, ih, List.countP_cons, h]

theorem collectEntries_mem_strict {qr : List QueryEntry} {rpn : String}
    {ent : BenchmarkEntry} (hmem : ent ∈ collectEntries qr rpn) :
    ∃ qe ∈ qr, ∃ f, qe.file = some f ∧
      getPropertyValue f rpn = JSVal.bool true ∧ ent.filePath = f.path := by
  induction qr with
  | nil => simp [collectEntries] at hmem
  | cons qe rest ih =>
    rw [collectEntries] at hmem
    cases hfile : qe.file with
    | none =>
      rw [hfile] at hmem
      dsimp only at hmem
      obtain ⟨qe', hqe', hrest⟩ := ih hmem
      exact ⟨qe', List.mem_cons_of_mem _ hqe', hrest⟩
    | some f =>
      rw [hfile] at hmem
      dsimp only at hmem
      by_cases hrun : getPropertyValue f rpn = JSVal.bool true
      · rw [if_pos hrun] at hmem
        rcases List.mem_cons.mp hmem with heq | hmem'
        · exact ⟨qe, List.mem_cons_self qe rest, f, hfile, hrun, by rw [heq]⟩
        · obtain ⟨qe', hqe', hrest⟩ := ih hmem'
          exact ⟨qe', List.mem_cons_of_mem _ hqe', hrest⟩
      · rw [if_neg hrun] at hmem
        obtain ⟨qe', hqe', hrest⟩ := ih hmem
        exact ⟨qe', List.mem_cons_of_mem _ hqe', hrest⟩

/-- Claim C1: every benchmark entry returned by the Entry Collector comes
from a query record whose eligibility property is exactly the boolean
`true` under strict equality; in particular that value is never the
string `"true"`, and records with any other value are dropped and never
appear in the returned list. -/
theorem getBenchmarkEntries_only_strictly_true (basesView : Option BasesData)
    (baseFilePath rpn : String) (ent : BenchmarkEntry)
    (hmem : ent ∈ getBenchmarkEntries basesView baseFilePath rpn) :
    ∃ bv queryResult, basesView = some bv ∧ bv.data = some queryResult ∧
      ∃ qe ∈ queryResult, ∃ f, qe.file = some f ∧
        getPropertyValue f rpn = JSVal.bool true ∧
        getPropertyValue f rpn ≠ JSVal.str "true" ∧
        ent.filePath = f.path := by
  match basesView with
  | none => simp [getBenchmarkEntries] at hmem
  | some bv =>
    match hdata : bv.data with
    | none =>
      rw [getBenchmarkEntries, hdata] at hmem
      dsimp only at hmem
      simp at hmem
    | some queryResult =>
      rw [getBenchmarkEntries, hdata] at hmem
      dsimp only at hmem
      obtain ⟨qe, hqe, f, hfile, hrun, hpath⟩ := collectEntries_mem_strict hmem
      refine ⟨bv, queryResult, rfl, hdata, qe, hqe, f, hfile, hrun, ?_, hpath⟩
      rw [hrun]
      intro h
      cases h

theorem getBenchmarkEntries_only_strictly_true_witness :
    c1Entry ∈ getBenchmarkEntries (some { data := some [{ file := some c1File }] })
      "b.base" "is_run" ∧
    ∃ bv queryResult,
      (some { data := some [{ file := some c1File }] } : Option BasesData) = some bv ∧
      bv.data = some queryResult ∧
      ∃ qe ∈ queryResult, ∃ f, qe.file = some f ∧
        getPropertyValue f "is_run" = JSVal.bool true ∧
        getPropertyValue f "is_run" ≠ JSVal.str "true" ∧
        c1Entry.filePath = f.path := by
  refine ⟨by decide, ?_⟩
  exact getBenchmarkEntries_only_strictly_true
    (some { data := some [{ file := some c1File }] }) "b.base" "is_run" c1Entry (by decide)

/-- Claim C2: over a non-empty list of eligible entries the orchestrator
attempts a submission for every entry in list order (a failure never
prevents later attempts), and the reported outcome counts exactly the
successful submissions and the failed ones. -/
theorem runBenchmarks_attempts_all_and_counts
    (transport : SubmissionBody → TransportResult) (apiUrl tmpl rpn : String)
    (entries : List BenchmarkEntry) (hne : entries ≠ [])
    (hall : ∀ e ∈ entries, e.isRun = true) :
    (runBenchmarks transport apiUrl entries tmpl rpn).attempted = entries ∧
    ∃ notice, (runBenchmarks transport apiUrl entries tmpl rpn).outcome =
      RunOutcome.completed
        (entries.countP (fun e => (sendBenchmarkRequest transport apiUrl e tmpl).success))
        (entries.countP (fun e => !(sendBenchmarkRequest transport apiUrl e tmpl).success))
        notice := by
  have hfilter : entries.filter (fun e => e.isRun) = entries :=
    List.filter_eq_self.mpr (by intro a ha; exact hall a ha)
  have hlen : ¬ entries.length = 0 := by
    simpa [List.length_eq_zero] using hne
  unfold runBenchmarks
  rw [hfilter, if_neg hlen, runLoop_spec]
  exact ⟨rfl, _, rfl⟩

theorem runBenchmarks_attempts_all_and_counts_witness :
    (runBenchmarks c2Transport "u" [c2EntryA, c2EntryB, c2EntryC] "t" "is_run").attempted
      = [c2EntryA, c2EntryB, c2EntryC] ∧
    ∃ notice,
      (runBenchmarks c2Transport "u" [c2EntryA, c2EntryB, c2EntryC] "t" "is_run").outcome
        = RunOutcome.completed 2 1 notice := by
  have h := runBenchmarks_attempts_all_and_counts c2Transport "u" "t" "is_run"
    [c2EntryA, c2EntryB, c2EntryC] (by decide) (by decide)
  have hs : List.countP
      (fun e => (sendBenchmarkRequest c2Transport "u" e "t").success)
      [c2EntryA, c2EntryB, c2EntryC] = 2 := by decide
  have hf : List.countP
      (fun e => !(sendBenchmarkRequest c2Transport "u" e "t").success)
      [c2EntryA, c2EntryB, c2EntryC] = 1 := by decide
  rw [hs, hf] at h
  exact h

/-- Claim C7: a single-entry submission is a success exactly when the
transport returns a status in `[200, 300)`; every other status yields a
failure carrying a `Server error` diagnostic, every thrown transport
error is caught and yields a failure carrying a `Request failed`
diagnostic, and in all cases the function returns an outcome value
instead of raising. -/
theorem sendBenchmarkRequest_classification
    (transport : SubmissionBody → TransportResult) (apiUrl : String)
    (entry : BenchmarkEntry) (tmpl : String) :
    ((sendBenchmarkRequest transport apiUrl entry tmpl).success = true ↔
      ∃ status json,
        transport (submittedBody entry tmpl) = TransportResult.response status json ∧
        200 ≤ status ∧ status < 300) ∧
    (∀ status json,
      transport (submittedBody entry tmpl) = TransportResult.response status json →
      ¬(200 ≤ status ∧ status < 300) →
      sendBenchmarkRequest transport apiUrl entry tmpl =
        { success := false, message := "Server error: " ++ toString status
          data := none }) ∧
    (∀ errVal, transport (submittedBody entry tmpl) = TransportResult.thrown errVal →
      sendBenchmarkRequest transport apiUrl entry tmpl =
        { success := false
          message := "Request failed: " ++ errVal.getD "Unknown error"
          data := none }) := by
  have hdef : sendBenchmarkRequest transport apiUrl entry tmpl =
      match transport (submittedBody entry tmpl) with
      | TransportResult.response status json =>
        if 200 ≤ status ∧ status < 300 then
          { success := true
            message := "Benchmark for " ++ entry.filePath ++ " submitted successfully"
            data := some json }
        else
          { success := false, message := "Server error: " ++ toString status
            data := none }
      | TransportResult.thrown errVal =>
        { success := false
          message := "Request failed: " ++ errVal.getD "Unknown error"
          data := none } := rfl
  refine ⟨?_, ?_, ?_⟩
  · rw [hdef]
    cases htr : transport (submittedBody entry tmpl) with
    | response status json =>
      dsimp only
      by_cases hst : 200 ≤ status ∧ status < 300
      · rw [if_pos hst]
        simp only [true_iff]
        exact ⟨status, json, rfl, hst⟩
      · rw [if_neg hst]
        simp only [Bool.false_eq_true, false_iff]
        rintro ⟨st, j, hj, hrange⟩
        injection hj with h1 h2
        subst h1
        exact hst hrange
    | thrown errVal =>
      dsimp only
      simp only [Bool.false_eq_true, false_iff]
      rintro ⟨st, j, hj, hrange⟩
      cases hj
  · intro st j hj hnot
    rw [hdef, hj]
    dsimp only
    rw [if_neg hnot]
  · intro ev hev
    rw [hdef, hev]

theorem sendBenchmarkRequest_classification_witness :
    sendBenchmarkRequest (fun _ => TransportResult.thrown (some "boom")) "u" c7Entry "t" =
      { success := false, message := "Request failed: boom", data := none } := by
  have h := (sendBenchmarkRequest_classification
    (fun _ => TransportResult.thrown (some "boom")) "u" c7Entry "t").2.2
    (some "boom") rfl
  rw [h]
  decide

/-- Claim C8: when no live bases view can be resolved, or the resolved
view yields no query result, the Entry Collector returns the empty list
(and, being a total function, raises no error). -/
theorem getBenchmarkEntries_no_view_empty (baseFilePath rpn : String) :
    getBenchmarkEntries none baseFilePath rpn = [] ∧
    getBenchmarkEntries (some { data := none }) baseFilePath rpn = [] :=
  ⟨rfl, rfl⟩

/-- Claim C9: on an empty entry list the orchestrator performs zero
submissions and reports the distinct nothing-to-run outcome, which is
never equal to a completed-run summary (in particular not to a
zero-success, zero-failure one). -/
theorem runBenchmarks_empty_nothing_to_run
    (transport : SubmissionBody → TransportResult) (apiUrl tmpl rpn : String) :
    runBenchmarks transport apiUrl [] tmpl rpn =
      { attempted := []
        outcome := RunOutcome.nothingToRun
          ("No benchmarks with " ++ rpn ++ "=true found") } ∧
    ∀ s f notice,
      RunOutcome.nothingToRun ("No benchmarks with " ++ rpn ++ "=true found") ≠
        RunOutcome.completed s f notice := by
  refine ⟨rfl, ?_⟩
  intro s f notice h
  cases h

/-- Claim C10: the orchestrator re-filters its input by the `isRun` flag:
every submitted entry has the flag set, the submitted list is exactly the
filtered input (so entries with the flag cleared are neither submitted
nor counted), when the filtered list is empty the nothing-to-run outcome
is reported even for a non-empty input, and otherwise the tallies range
over the filtered list only. -/
theorem runBenchmarks_refilters
    (transport : SubmissionBody → TransportResult) (apiUrl tmpl rpn : String)
    (entries : List BenchmarkEntry) :
    (∀ e ∈ (runBenchmarks transport apiUrl entries tmpl rpn).attempted,
      e.isRun = true) ∧
    (runBenchmarks transport apiUrl entries tmpl rpn).attempted =
      entries.filter (fun e => e.isRun) ∧
    (entries.filter (fun e => e.isRun) = [] →
      (runBenchmarks transport apiUrl entries tmpl rpn).outcome =
        RunOutcome.nothingToRun ("No benchmarks with " ++ rpn ++ "=true found")) ∧
    (entries.filter (fun e => e.isRun) ≠ [] →
      ∃ notice, (runBenchmarks transport apiUrl entries tmpl rpn).outcome =
        RunOutcome.completed
          ((entries.filter (fun e => e.isRun)).countP
            (fun e => (sendBenchmarkRequest transport apiUrl e tmpl).success))
          ((entries.filter (fun e => e.isRun)).countP
            (fun e => !(sendBenchmarkRequest transport apiUrl e tmpl).success))
          notice) := by
  by_cases hlen : (entries.filter (fun e => e.isRun)).length = 0
  · have hnil : entries.filter (fun e => e.isRun) = [] :=
      List.length_eq_zero.mp hlen
    have hrun : runBenchmarks transport apiUrl entries tmpl rpn =
        { attempted := []
          outcome := RunOutcome.nothingToRun
            ("No benchmarks with " ++ rpn ++ "=true found") } := by
      unfold runBenchmarks
      rw [if_pos hlen]
    refine ⟨?_, ?_, ?_, ?_⟩
    · intro e he
      rw [hrun] at he
      simp at he
    · rw [hrun, hnil]
    · intro _
      rw [hrun]
    · intro hne
      exact absurd hnil hne
  · have hrun : runBenchmarks transport apiUrl entries tmpl rpn =
        { attempted := entries.filter (fun e => e.isRun)
          outcome := RunOutcome.completed
            ((entries.filter (fun e => e.isRun)).countP
              (fun e => (sendBenchmarkRequest transport apiUrl e tmpl).success))
            ((entries.filter (fun e => e.isRun)).countP
              (fun e => !(sendBenchmarkRequest transport apiUrl e tmpl).success))
            (if (entries.filter (fun e => e.isRun)).countP
                (fun e => !(sendBenchmarkRequest transport apiUrl e tmpl).success) = 0
              then "All " ++ toString ((entries.filter (fun e => e.isRun)).countP
                (fun e => (sendBenchmarkRequest transport apiUrl e tmpl).success))
                ++ " benchmark(s) submitted successfully"
              else "Completed: " ++ toString ((entries.filter (fun e => e.isRun)).countP
                (fun e => (sendBenchmarkRequest transport apiUrl e tmpl).success))
                ++ " success, "
                ++ toString ((entries.filter (fun e => e.isRun)).countP
                  (fun e => !(sendBenchmarkRequest transport apiUrl e tmpl).success))
                ++ " failed") } := by
      unfold runBenchmarks
      rw [if_neg hlen, runLoop_spec]
    refine ⟨?_, ?_, ?_, ?_⟩
    · intro e he
      rw [hrun] at he
      exact (List.mem_filter.mp he).2
    · rw [hrun]
    · intro hnil
      exact absurd (by rw [hnil]; rfl : (entries.filter (fun e => e.isRun)).length = 0) hlen
    · intro _
      rw [hrun]
      exact ⟨_, rfl⟩

theorem runBenchmarks_refilters_witness :
    (runBenchmarks (fun _ => TransportResult.response 200 JSVal.null) "u"
      [c10EntryOff] "t" "is_run").attempted = [] ∧
    (runBenchmarks (fun _ => TransportResult.response 200 JSVal.null) "u"
      [c10EntryOff] "t" "is_run").outcome =
      RunOutcome.nothingToRun "No benchmarks with is_run=true found" := by
  have h := runBenchmarks_refilters (fun _ => TransportResult.response 200 JSVal.null)
    "u" "t" "is_run" [c10EntryOff]
  have hnil : [c10EntryOff].filter (fun e => e.isRun) = [] := by decide
  refine ⟨?_, ?_⟩
  · rw [h.2.1, hnil]
  · have := h.2.2.1 hnil
    rw [this]
    decide

theorem trim_guard (l : List Char) :
    (if (trimChars l).isEmpty then ([] : List Char) else trimChars l) = trimChars l := by
  by_cases h : (trimChars l).isEmpty
  · rw [if_pos h, List.isEmpty_iff.mp h]
  · rw [if_neg h]

theorem tab_guard (l : List Char) :
    (if l.isEmpty then l else tabsToSpaces l) = tabsToSpaces l := by
  by_cases h : l.isEmpty
  · rw [if_pos h, List.isEmpty_iff.mp h]; rfl
  · rw [if_neg h]

/-- Claim C4: the payload extractor first strips a leading frontmatter
block when present, then yields the first tagged fenced block's inner
text trimmed — or the whole trimmed body when no such block exists — and
replaces every horizontal tab of the result by two spaces; an empty
document and a frontmatter-only document yield the empty string, and a
tagged block containing `a:\n\tb: 1` yields `a:\n  b: 1`. -/
theorem extractYamlFromBody_spec :
    (∀ content : String, extractYamlFromBody content = specExtractPayload content) ∧
    extractYamlFromBody "" = "" ∧
    extractYamlFromBody "---\nfoo: bar\n---\n" = "" ∧
    extractYamlFromBody "```yaml_ycsb_run\na:\n\tb: 1\n```" = "a:\n  b: 1" := by
  refine ⟨?_, by decide, by decide, by decide⟩
  intro content
  unfold extractYamlFromBody specExtractPayload specStripFrontmatter specFirstWorkloadBlock
  dsimp only
  generalize (if List.isPrefixOf ("---\n".data) content.data then
      match findSub ("\n---\n".data) (content.data.drop 4) with
      | some j => content.data.drop (4 + j + 5)
      | none => content.data
    else content.data) = body
  cases hblk : findSub yamlBlockOpen body with
  | none =>
    dsimp only
    rw [trim_guard, tab_guard]
  | some i =>
    dsimp only
    cases hfence : findSub codeFence (body.drop (i + yamlBlockOpen.length)) with
    | none =>
      dsimp only
      rw [trim_guard, tab_guard]
    | some k =>
      dsimp only
      rw [tab_guard]

theorem unwrapLink_wrapped (inner : String) (h1 : inner.data ≠ [])
    (h2 : ∀ c ∈ inner.data, c ≠ '\n' ∧ c ≠ '\r') :
    unwrapLink ("[[" ++ inner ++ "]]") = inner := by
  have hdata : ("[[" ++ inner ++ "]]").data = '[' :: '[' :: (inner.data ++ [']', ']']) := by
    simp [String.data_append]
  unfold unwrapLink
  dsimp only
  rw [hdata]
  have hlen : ('[' :: '[' :: (inner.data ++ [']', ']'])).length = inner.data.length + 4 := by
    simp [List.length_append]
  rw [hlen]
  have e1 : inner.data.length + 4 - 2 = inner.data.length + 2 := by omega
  have e2 : inner.data.length + 4 - 4 = inner.data.length := by omega
  rw [e1, e2]
  have hdropn : ('[' :: '[' :: (inner.data ++ [']', ']'])).drop (inner.data.length + 2) =
      [']', ']'] := by
    have hassoc : ('[' :: '[' :: (inner.data ++ [']', ']'])) =
        ('[' :: '[' :: inner.data) ++ [']', ']'] := by simp
    rw [hassoc]
    have hl : inner.data.length + 2 = ('[' :: '[' :: inner.data).length := by
      simp [List.length_cons]
    rw [hl]
    exact List.drop_left _ _
  have hdrop2 : ('[' :: '[' :: (inner.data ++ [']', ']'])).drop 2 =
      inner.data ++ [']', ']'] := rfl
  rw [hdrop2, List.take_left]
  have hpos : 0 < inner.data.length := List.length_pos.mpr h1
  have hall : inner.data.all (fun c => decide (c ≠ '\n' ∧ c ≠ '\r')) = true :=
    List.all_eq_true.mpr (fun c hc => decide_eq_true (h2 c hc))
  rw [if_pos ⟨by omega, rfl, hdropn, hall⟩]

/-- Claim C5 counterexample: on the same record, the single-field
accessor returns the link-shaped string `"[[Target]]"` raw — not the
unwrapped `"Target"` that the claim requires of both accessors — while
the all-fields accessor does unwrap it. -/
theorem getPropertyValue_does_not_unwrap :
    getPropertyValue c5File "k" = JSVal.str "[[Target]]" ∧
    getPropertyValue c5File "k" ≠ JSVal.str "Target" ∧
    getAllProperties c5File = [("k", JSVal.str "Target")] := by decide

/-- Claim C5 (amended): the all-fields accessor normalizes link-shaped
string values — a string that is entirely `[[` and `]]` wrapped around
nonempty line-break-free inner text is replaced by the inner text, other
strings and all non-string values pass through unchanged — while the
single-field accessor returns the stored value unchanged, with no link
normalization at all. -/
theorem propertyAccessor_normalization
    (fm : List (String × JSVal)) (f : VFile) (hf : f.frontmatter = some fm) :
    (∀ name, getPropertyValue f name = lookupProp fm name) ∧
    getAllProperties f = fm.map (fun kv => (kv.1, normalizeLinkValue kv.2)) ∧
    (∀ v : JSVal, (∀ s, v ≠ JSVal.str s) → normalizeLinkValue v = v) ∧
    (∀ inner : String, inner.data ≠ [] →
      (∀ c ∈ inner.data, c ≠ '\n' ∧ c ≠ '\r') →
      normalizeLinkValue (JSVal.str ("[[" ++ inner ++ "]]")) = JSVal.str inner) ∧
    normalizeLinkValue (JSVal.str "not a link") = JSVal.str "not a link" ∧
    normalizeLinkValue (JSVal.str "[[partial] broken") =
      JSVal.str "[[partial] broken" := by
  refine ⟨?_, ?_, ?_, ?_, by decide, by decide⟩
  · intro name
    unfold getPropertyValue
    rw [hf]
  · unfold getAllProperties
    rw [hf]
  · intro v hv
    cases v with
    | str s => exact absurd rfl (hv s)
    | undef => rfl
    | null => rfl
    | bool b => rfl
    | num n => rfl
  · intro inner h1 h2
    unfold normalizeLinkValue
    dsimp only
    rw [unwrapLink_wrapped inner h1 h2]

theorem propertyAccessor_normalization_witness :
    (∀ name, getPropertyValue c5File name =
      lookupProp [("k", JSVal.str "[[Target]]")] name) ∧
    getAllProperties c5File =
      ([("k", JSVal.str "[[Target]]")]).map
        (fun kv => (kv.1, normalizeLinkValue kv.2)) ∧
    (∀ v : JSVal, (∀ s, v ≠ JSVal.str s) → normalizeLinkValue v = v) ∧
    (∀ inner : String, inner.data ≠ [] →
      (∀ c ∈ inner.data, c ≠ '\n' ∧ c ≠ '\r') →
      normalizeLinkValue (JSVal.str ("[[" ++ inner ++ "]]")) = JSVal.str inner) ∧
    normalizeLinkValue (JSVal.str "not a link") = JSVal.str "not a link" ∧
    normalizeLinkValue (JSVal.str "[[partial] broken") =
      JSVal.str "[[partial] broken" :=
  propertyAccessor_normalization [("k", JSVal.str "[[Target]]")] c5File rfl

theorem takeWhile_append_eq (p : Char → Bool) (xs ys : List Char) :
    (xs ++ ys).takeWhile p =
      if xs.takeWhile p = xs then xs ++ ys.takeWhile p else xs.takeWhile p := by
  induction xs with
  | nil => simp
  | cons x xs ih =>
    cases hp : p x with
    | true =>
      simp only [List.cons_append, List.takeWhile_cons, hp, if_true]
      rw [ih]
      by_cases h : xs.takeWhile p = xs
      · rw [if_pos h, if_pos (by rw [h])]
      · rw [if_neg h, if_neg (by intro hh; injection hh with h1 h2; exact h h2)]
    | false =>
      simp only [List.cons_append, List.takeWhile_cons, hp, Bool.false_eq_true, if_false]
      rw [if_neg (by intro hh; cases hh)]

theorem drop_length_takeWhile (p : Char → Bool) (l : List Char) :
    l.drop (l.takeWhile p).length = l.dropWhile p := by
  induction l with
  | nil => rfl
  | cons x xs ih =>
    cases hp : p x
    · simp [List.takeWhile_cons, List.dropWhile_cons, hp]
    · simp [List.takeWhile_cons, List.dropWhile_cons, hp, ih]

theorem dropWhile_head_not (p : Char → Bool) (l : List Char) (c : Char) (t : List Char)
    (h : l.dropWhile p = c :: t) : p c = false := by
  induction l with
  | nil => cases h
  | cons x xs ih =>
    rw [List.dropWhile_cons] at h
    by_cases hp : p x
    · rw [if_pos hp] at h
      exact ih h
    · rw [if_neg hp] at h
      cases h
      exact Bool.eq_false_iff.mpr hp

theorem takeWhile_congr_mem {p q : Char → Bool} :
    ∀ {l : List Char}, (∀ x ∈ l, p x = q x) → l.takeWhile p = l.takeWhile q := by
  intro l
  induction l with
  | nil => intro _; rfl
  | cons x xs ih =>
    intro h
    rw [List.takeWhile_cons, List.takeWhile_cons, h x (List.mem_cons_self x xs),
      ih (fun y hy => h y (List.mem_cons_of_mem _ hy))]

theorem splitChar_ne_nil (sep : Char) (cs : List Char) : splitChar sep cs ≠ [] := by
  induction cs with
  | nil => simp [splitChar]
  | cons c rest ih =>
    rw [splitChar]
    by_cases h : c = sep
    · simp [h]
    · rw [if_neg h]
      cases hp : splitChar sep rest with
      | nil => simp
      | cons p ps => simp

theorem splitChar_of_not_mem (sep : Char) (cs : List Char) (h : sep ∉ cs) :
    splitChar sep cs = [cs] := by
  induction cs with
  | nil => rfl
  | cons c rest ih =>
    rw [splitChar]
    have hc : ¬ c = sep := by
      intro hh
      exact h (by rw [hh]; exact List.mem_cons_self sep rest)
    rw [if_neg hc, ih (fun hm => h (List.mem_cons_of_mem _ hm))]

theorem splitChar_two_le_of_mem (sep : Char) (cs : List Char) (h : sep ∈ cs) :
    2 ≤ (splitChar sep cs).length := by
  induction cs with
  | nil => cases h
  | cons c rest ih =>
    rw [splitChar]
    by_cases hc : c = sep
    · rw [if_pos hc]
      have hne := splitChar_ne_nil sep rest
      have hpos : 0 < (splitChar sep rest).length := List.length_pos.mpr hne
      rw [List.length_cons]
      omega
    · rw [if_neg hc]
      have hmem : sep ∈ rest := by
        rcases List.mem_cons.mp h with h1 | h2
        · exact absurd h1.symm hc
        · exact h2
      have h2 := ih hmem
      cases hp : splitChar sep rest with
      | nil => exact absurd hp (splitChar_ne_nil sep rest)
      | cons p ps =>
        rw [hp] at h2
        rw [List.length_cons] at h2 ⊢
        omega

theorem splitChar_getLast (sep : Char) (cs : List Char) :
    ((splitChar sep cs).getLast?.getD []) =
      (cs.reverse.takeWhile (fun c => c ≠ sep)).reverse := by
  induction cs with
  | nil => rfl
  | cons c rest ih =>
    rw [splitChar]
    rw [List.reverse_cons]
    by_cases hc : c = sep
    · rw [if_pos hc]
      have hne := splitChar_ne_nil sep rest
      obtain ⟨p, ps, hp⟩ := List.exists_cons_of_ne_nil hne
      have key : (rest.reverse ++ [c]).takeWhile (fun x => decide (x ≠ sep)) =
          rest.reverse.takeWhile (fun x => decide (x ≠ sep)) := by
        rw [takeWhile_append_eq]
        by_cases hall : rest.reverse.takeWhile (fun x => decide (x ≠ sep)) = rest.reverse
        · rw [if_pos hall, hall]
          subst hc
          simp
        · rw [if_neg hall]
      rw [key, ← ih, hp, List.getLast?_cons_cons]
    · rw [if_neg hc]
      cases hp : splitChar sep rest with
      | nil => exact absurd hp (splitChar_ne_nil sep rest)
      | cons p ps =>
        by_cases hmem : sep ∈ rest
        · have h2 := splitChar_two_le_of_mem sep rest hmem
          rw [hp] at h2
          rw [List.length_cons] at h2
          have hps : ps ≠ [] := by
            intro hnil
            rw [hnil] at h2
            simp at h2
          obtain ⟨p2, ps2, hps2⟩ := List.exists_cons_of_ne_nil hps
          have key : (rest.reverse ++ [c]).takeWhile (fun x => decide (x ≠ sep)) =
              rest.reverse.takeWhile (fun x => decide (x ≠ sep)) := by
            rw [takeWhile_append_eq]
            rw [if_neg]
            intro hall
            have hq := List.takeWhile_eq_self_iff.mp hall sep
              (List.mem_reverse.mpr hmem)
            simp at hq
          rw [key, ← ih, hp, hps2]
          rw [List.getLast?_cons_cons, List.getLast?_cons_cons]
        · have hsingle := splitChar_of_not_mem sep rest hmem
          rw [hsingle] at hp
          injection hp with hp1 hp2
          subst hp1
          subst hp2
          have hall : rest.reverse.takeWhile (fun x => decide (x ≠ sep)) = rest.reverse := by
            apply List.takeWhile_eq_self_iff.mpr
            intro x hx
            have hxr : x ∈ rest := List.mem_reverse.mp hx
            have : x ≠ sep := fun hh => hmem (hh ▸ hxr)
            simpa using this
          rw [takeWhile_append_eq, if_pos hall]
          have hqc : [c].takeWhile (fun x => decide (x ≠ sep)) = [c] := by
            apply List.takeWhile_eq_self_iff.mpr
            intro x hx
            rcases List.mem_singleton.mp hx with rfl
            simpa using hc
          rw [hqc, List.reverse_append, List.reverse_reverse]
          rfl

theorem stripExtension_eq_spec (seg : List Char) (h : '/' ∉ seg) :
    stripExtension seg = specStripExtension seg := by
  unfold stripExtension specStripExtension
  dsimp only
  have hcongr : seg.reverse.takeWhile (fun c => decide (c ≠ '.' ∧ c ≠ '/')) =
      seg.reverse.takeWhile (fun c => decide (c ≠ '.')) := by
    apply takeWhile_congr_mem
    intro x hx
    have hxr : x ∈ seg := List.mem_reverse.mp hx
    have hxs : x ≠ '/' := fun hh => h (hh ▸ hxr)
    by_cases hd : x = '.'
    · simp [hd]
    · simp [hd, hxs]
  rw [hcongr, drop_length_takeWhile]
  cases hd : seg.reverse.dropWhile (fun c => decide (c ≠ '.')) with
  | nil =>
    dsimp only
    have hall : ∀ x ∈ seg.reverse, (fun c => decide (c ≠ '.')) x = true :=
      List.dropWhile_eq_nil_iff.mp hd
    have hself : seg.reverse.takeWhile (fun c => decide (c ≠ '.')) = seg.reverse :=
      List.takeWhile_eq_self_iff.mpr hall
    rw [if_neg]
    intro hcond
    rw [hself] at hcond
    omega
  | cons d t =>
    have hq := dropWhile_head_not _ _ _ _ hd
    have hdot : d = '.' := by simpa using hq
    subst hdot
    dsimp only
    have hlensum :
        (seg.reverse.takeWhile (fun c => decide (c ≠ '.'))).length + (t.length + 1) =
          seg.reverse.length := by
      have hsplit := List.takeWhile_append_dropWhile
        (fun c => decide (c ≠ '.')) seg.reverse
      have hlen := congrArg List.length hsplit
      rw [List.length_append, hd, List.length_cons] at hlen
      omega
    by_cases hE : (seg.reverse.takeWhile (fun c => decide (c ≠ '.'))).isEmpty
    · rw [if_neg (fun hcond => absurd hE (by simpa using hcond.2)), if_neg]
      intro hcond
      exact absurd hE (by simpa using hcond.2)
    · rw [if_pos ⟨rfl, by simpa using hE⟩, if_pos]
      constructor
      · omega
      · simpa using hE

theorem deriveFileName_eq_spec (path : String) :
    deriveFileName path = specDeriveFileName path := by
  unfold deriveFileName specDeriveFileName specLastSegment
  dsimp only
  rw [splitChar_getLast]
  apply stripExtension_eq_spec
  intro hmem
  rw [List.mem_reverse] at hmem
  have := List.mem_takeWhile_imp hmem
  simp at this

theorem replacePropsAux_nil (props : List (String × JSVal)) (fuel : Nat) :
    replacePropsAux props fuel [] = [] := by
  cases fuel <;> rfl

theorem replacePropsAux_cons (props : List (String × JSVal)) (fuel : Nat)
    (c : Char) (rest : List Char) :
    replacePropsAux props (fuel + 1) (c :: rest) =
      if c = '{' then
        match rest.drop (rest.takeWhile (fun x => x ≠ '}')).length with
        | d :: tail =>
          if d = '}' ∧ ¬ (rest.takeWhile (fun x => x ≠ '}')).isEmpty then
            propValueString props (String.mk (rest.takeWhile (fun x => x ≠ '}'))) ++
              replacePropsAux props fuel tail
          else c :: replacePropsAux props fuel rest
        | [] => c :: replacePropsAux props fuel rest
      else c :: replacePropsAux props fuel rest := rfl

theorem replacePropsAux_no_open (props : List (String × JSVal)) :
    ∀ (fuel : Nat) (s : List Char), (∀ c ∈ s, c ≠ '{') →
      replacePropsAux props fuel s = s := by
  intro fuel
  induction fuel with
  | zero => intro s _; cases s <;> rfl
  | succ fuel ih =>
    intro s h
    cases s with
    | nil => rfl
    | cons c rest =>
      rw [replacePropsAux_cons, if_neg (h c (List.mem_cons_self c rest)),
        ih rest (fun x hx => h x (List.mem_cons_of_mem _ hx))]

theorem replacePropsAux_no_close (props : List (String × JSVal)) :
    ∀ (fuel : Nat) (s : List Char), '}' ∉ s →
      replacePropsAux props fuel s = s := by
  intro fuel
  induction fuel with
  | zero => intro s _; cases s <;> rfl
  | succ fuel ih =>
    intro s h
    cases s with
    | nil => rfl
    | cons c rest =>
      have hrest : '}' ∉ rest := fun hm => h (List.mem_cons_of_mem _ hm)
      rw [replacePropsAux_cons]
      by_cases hc : c = '{'
      · rw [if_pos hc]
        have hself : rest.takeWhile (fun x => decide (x ≠ '}')) = rest :=
          List.takeWhile_eq_self_iff.mpr (fun x hx => by
            have hx2 : x ≠ '}' := fun hh => hrest (hh ▸ hx)
            simpa using hx2)
        rw [hself, List.drop_length]
        exact congrArg (c :: ·) (ih rest hrest)
      · rw [if_neg hc]
        exact congrArg (c :: ·) (ih rest hrest)

theorem replaceProps_no_open (props : List (String × JSVal)) (s : List Char)
    (h : ∀ c ∈ s, c ≠ '{') : replaceProps props s = s :=
  replacePropsAux_no_open props s.length s h

theorem replaceProps_no_close (props : List (String × JSVal)) (s : List Char)
    (h : '}' ∉ s) : replaceProps props s = s :=
  replacePropsAux_no_close props s.length s h

theorem propValueString_of_str (props : List (String × JSVal)) (name : String)
    (w : String) (h : lookupProp props name = JSVal.str w) :
    propValueString props name = w.data := by
  unfold propValueString
  rw [h]
  rw [if_pos ⟨by simp, by simp⟩]
  rfl

theorem replaceProps_single (props : List (String × JSVal)) (name : List Char)
    (h1 : name ≠ []) (h2 : ∀ c ∈ name, c ≠ '}') :
    replaceProps props ('{' :: (name ++ ['}'])) =
      propValueString props (String.mk name) := by
  unfold replaceProps
  rw [show ('{' :: (name ++ ['}'])).length = (name ++ ['}']).length + 1 from rfl]
  rw [replacePropsAux_cons, if_pos rfl]
  have hname : name.takeWhile (fun x => decide (x ≠ '}')) = name :=
    List.takeWhile_eq_self_iff.mpr (fun x hx => by simpa using h2 x hx)
  have hself : (name ++ ['}']).takeWhile (fun x => decide (x ≠ '}')) = name := by
    rw [takeWhile_append_eq, if_pos hname]
    simp
  rw [hself, List.drop_left]
  dsimp only
  have hne : ¬ name.isEmpty = true := fun hh => h1 (List.isEmpty_iff.mp hh)
  rw [if_pos ⟨rfl, hne⟩, replacePropsAux_nil, List.append_nil]

theorem replaceAllCIAux_nil (pat rep : List Char) (fuel : Nat) :
    replaceAllCIAux pat rep fuel [] = [] := by
  cases fuel <;> rfl

theorem replaceAllCIAux_cons (pat rep : List Char) (fuel : Nat)
    (c : Char) (rest : List Char) :
    replaceAllCIAux pat rep (fuel + 1) (c :: rest) =
      if 0 < pat.length ∧ ((c :: rest).take pat.length).map Char.toLower = pat then
        rep ++ replaceAllCIAux pat rep fuel ((c :: rest).drop pat.length)
      else c :: replaceAllCIAux pat rep fuel rest := rfl

theorem replaceAllCIAux_no_occur (pat rep : List Char) :
    ∀ (fuel : Nat) (s : List Char), ciOccurs pat s = false →
      replaceAllCIAux pat rep fuel s = s := by
  intro fuel
  induction fuel with
  | zero => intro s _; cases s <;> rfl
  | succ fuel ih =>
    intro s h
    cases s with
    | nil => rfl
    | cons c rest =>
      rw [ciOccurs] at h
      have hparts := Bool.or_eq_false_iff.mp h
      rw [replaceAllCIAux_cons, if_neg, ih rest hparts.2]
      intro hcond
      exact absurd (decide_eq_true hcond.2) (by rw [hparts.1]; intro hh; cases hh)

theorem replaceAllCI_no_occur (pat rep s : List Char) (h : ciOccurs pat s = false) :
    replaceAllCI pat rep s = s :=
  replaceAllCIAux_no_occur pat rep s.length s h

theorem replaceAllCI_exact (pat rep : List Char) (hne : pat ≠ [])
    (hlow : pat.map Char.toLower = pat) : replaceAllCI pat rep pat = rep := by
  unfold replaceAllCI
  cases hp : pat with
  | nil => exact absurd hp hne
  | cons c rest =>
    subst hp
    rw [show (c :: rest).length = rest.length + 1 from rfl, replaceAllCIAux_cons]
    rw [if_pos ⟨by simp, by rw [List.take_length]; exact hlow⟩]
    rw [List.drop_length, replaceAllCIAux_nil, List.append_nil]

theorem generateRunningName_filename_template (e : BenchmarkEntry) :
    generateRunningName "{filename}" e =
      String.mk (replaceProps e.properties (deriveFileName e.filePath)) := by
  unfold generateRunningName
  dsimp only
  rw [show ['{', 'f', 'i', 'l', 'e', 'n', 'a', 'm', 'e', '}'] = placeholderFilename
    from by decide]
  rw [replaceAllCI_exact placeholderFilename (deriveFileName e.filePath)
    (by decide) (by decide)]

/-- Claim C3 counterexample: for the template `{filename}` and an entry
whose file path is `a/{filename}.md` — so the derived bare filename is the
text `{filename}` itself — the resolver returns `HACK`, the value of the
property literally named `filename`; the property overrides the built-in
placeholder, contradicting the claim that it cannot. -/
theorem generateRunningName_filename_override :
    generateRunningName "{filename}" c3Entry = "HACK" ∧
    String.mk (deriveFileName c3Entry.filePath) = "{filename}" ∧
    lookupProp c3Entry.properties "filename" = JSVal.str "HACK" ∧
    ("HACK" : String) ≠ "{filename}" := by decide

/-- Claim C3 (amended): `resolveName` derives the bare filename as the
last `/`-separated path segment with a trailing extension removed — an
extension being a final dot followed by a nonempty dot-free, slash-free
run, so a segment ending in a bare dot keeps it — substitutes it for
every case-insensitive `{filename}`, and then runs the generic
`{propertyName}` pass over the resulting string, so braces contributed by
the substituted filename participate in the generic pass (a property
literally named `filename` can then be consulted); a generic placeholder
`{name}` resolves to `String(value)` for a present non-null property and
to the empty string otherwise. -/
theorem generateRunningName_amended (t : String) (e : BenchmarkEntry)
    (name : String) (hn1 : name.data ≠ []) (hn2 : ∀ c ∈ name.data, c ≠ '}')
    (hn3 : ciOccurs placeholderFilename ("\x7b" ++ name ++ "\x7d").data = false) :
    generateRunningName t e =
      String.mk (replaceProps e.properties
        (replaceAllCI placeholderFilename (specDeriveFileName e.filePath) t.data)) ∧
    generateRunningName "{filename}" e =
      String.mk (replaceProps e.properties (specDeriveFileName e.filePath)) ∧
    generateRunningName ("\x7b" ++ name ++ "\x7d") e =
      String.mk (propValueString e.properties name) ∧
    generateRunningName "{filename}"
      { filePath := "a/b/note.md", yamlContent := "", isRun := true
        «variables» := JSVal.null, properties := [] } = "note" ∧
    generateRunningName "{Operation}_{filename}"
      { filePath := "x/run1.md", yamlContent := "", isRun := true
        «variables» := JSVal.null
        properties := [("Operation", JSVal.str "Insert")] } = "Insert_run1" ∧
    generateRunningName "{missing}_{filename}"
      { filePath := "f.md", yamlContent := "", isRun := true
        «variables» := JSVal.null, properties := [] } = "_f" := by
  refine ⟨?_, ?_, ?_, by decide, by decide, by decide⟩
  · unfold generateRunningName
    dsimp only
    rw [deriveFileName_eq_spec]
  · rw [generateRunningName_filename_template, deriveFileName_eq_spec]
  · unfold generateRunningName
    dsimp only
    rw [replaceAllCI_no_occur placeholderFilename _ _ hn3]
    have hdata : ("\x7b" ++ name ++ "\x7d").data = '{' :: (name.data ++ ['}']) := by
      simp [String.data_append]
    rw [hdata, replaceProps_single e.properties name.data hn1 hn2]

theorem generateRunningName_amended_witness :
    generateRunningName "{Operation}_{filename}" c3Entry =
      String.mk (replaceProps c3Entry.properties
        (replaceAllCI placeholderFilename (specDeriveFileName c3Entry.filePath)
          ("{Operation}_{filename}" : String).data)) ∧
    generateRunningName "{filename}" c3Entry =
      String.mk (replaceProps c3Entry.properties (specDeriveFileName c3Entry.filePath)) ∧
    generateRunningName ("\x7b" ++ "Operation" ++ "\x7d") c3Entry =
      String.mk (propValueString c3Entry.properties "Operation") ∧
    generateRunningName "{filename}"
      { filePath := "a/b/note.md", yamlContent := "", isRun := true
        «variables» := JSVal.null, properties := [] } = "note" ∧
    generateRunningName "{Operation}_{filename}"
      { filePath := "x/run1.md", yamlContent := "", isRun := true
        «variables» := JSVal.null
        properties := [("Operation", JSVal.str "Insert")] } = "Insert_run1" ∧
    generateRunningName "{missing}_{filename}"
      { filePath := "f.md", yamlContent := "", isRun := true
        «variables» := JSVal.null, properties := [] } = "_f" :=
  generateRunningName_amended "{Operation}_{filename}" c3Entry "Operation"
    (by decide) (by decide) (by decide)

/-- Claim C6 counterexample: for an entry whose derived filename is the
text `{p}`, resolving the template `{filename}` yields `X` — the value of
property `p` — because the text substituted for `{filename}` is scanned
again by the generic property pass; under the claim the result would be
the literal `{p}`. -/
theorem generateRunningName_rescans_filename :
    generateRunningName "{filename}" c6Entry = "X" ∧
    String.mk (deriveFileName c6Entry.filePath) = "{p}" ∧
    ("X" : String) ≠ "{p}" := by decide

/-- Claim C6 (amended): `resolveName` is total by construction and the
generic property pass performs no recursive expansion — text with no
brace cannot be rewritten, a template without `}` is returned literally,
and the value substituted for a `{name}` placeholder is emitted verbatim
even when it itself looks like a placeholder — but the filename
substituted for `{filename}` is not exempt from the generic pass: the
pass runs on the result of the filename substitution, so brace characters
inside the derived filename do participate. -/
theorem generateRunningName_no_recursive_expansion :
    (∀ (props : List (String × JSVal)) (s : List Char),
      (∀ c ∈ s, c ≠ '{') → replaceProps props s = s) ∧
    (∀ (props : List (String × JSVal)) (s : List Char),
      '}' ∉ s → replaceProps props s = s) ∧
    (∀ (props : List (String × JSVal)) (name w : String),
      name.data ≠ [] → (∀ c ∈ name.data, c ≠ '}') →
      lookupProp props name = JSVal.str w →
      replaceProps props ('{' :: (name.data ++ ['}'])) = w.data) ∧
    (∀ e : BenchmarkEntry, generateRunningName "{filename}" e =
      String.mk (replaceProps e.properties (deriveFileName e.filePath))) := by
  refine ⟨replaceProps_no_open, replaceProps_no_close, ?_, generateRunningName_filename_template⟩
  intro props name w hn1 hn2 hval
  rw [replaceProps_single props name.data hn1 hn2]
  exact propValueString_of_str props name w hval

theorem generateRunningName_no_recursive_expansion_witness :
    replaceProps [("a", JSVal.str "{b}"), ("b", JSVal.str "Z")]
      ('{' :: (("a" : String).data ++ ['}'])) = ("{b}" : String).data ∧
    generateRunningName "{filename}" c6Entry =
      String.mk (replaceProps c6Entry.properties (deriveFileName c6Entry.filePath)) :=
  ⟨generateRunningName_no_recursive_expansion.2.2.1
      [("a", JSVal.str "{b}"), ("b", JSVal.str "Z")] "a" "{b}"
      (by decide) (by decide) (by decide),
    generateRunningName_no_recursive_expansion.2.2.2 c6Entry⟩

end GYCSB
